/-
Verification of the text segmentation and field-extraction core of
mtg_packing_slip_organizer.py.

Python strings are modeled as `List Char` (the character classes used by the
program are ASCII, so `Char.isLower`, `Char.isUpper`, `Char.isDigit`,
`Char.isAlpha` model the Python predicates on the inputs of interest).
Each `re` substitution or search is modeled by an explicit left-to-right
scanner that mirrors the non-overlapping leftmost-match semantics of
`re.sub` / `re.search` / `re.findall` for the concrete pattern at hand.
Monetary amounts parsed with `float(...)` are modeled exactly as rationals.
-/
import Mathlib

/-- Apostrophe character (used inside several set names and by the
camel-case rule of the normalizer). -/
def apos : Char := Char.ofNat 39

/-- Model of the Python regex class `\s` (and of `str.strip()`):
space, tab, newline, carriage return, vertical tab, form feed. -/
def pySpace (c : Char) : Bool :=
  c = ' ' || c = '\t' || c = '\n' || c = '\r' || c = '\x0b' || c = '\x0c'

/-- Model of the Python regex class `\w` (ASCII part): letters, digits,
underscore. Used for the `\b` word boundaries. -/
def wordChar (c : Char) : Bool := c.isAlphanum || c = '_'

/-- Model of `str.strip()`: drop whitespace from both ends. -/
def pyStrip (l : List Char) : List Char :=
  ((l.dropWhile pySpace).reverse.dropWhile pySpace).reverse

/-- Value of a string of decimal digits, as `int(...)` computes it. -/
def natOfDigits (l : List Char) : Nat :=
  l.foldl (fun a c => 10 * a + (c.toNat - 48)) 0

/-- Containment test `sub in l` of Python (`sub` occurs contiguously in `l`). -/
def hasSub : List Char → List Char → Bool
  | [], sub => sub.isEmpty
  | c :: t, sub => sub.isPrefixOf (c :: t) || hasSub t sub

/-
Generic scanners modeling `re.sub` and `re.findall`.

A matcher receives the character just before the current position (for `\b`
lookbehind) and the remaining suffix; when it fires it returns the number of
consumed characters (at least 1) and the replacement.  Scanning resumes after
the consumed span, exactly like `re.sub`.  Fuel equal to the input length
suffices because every step consumes at least one character.
-/

/-- Core loop of the substitution scanner. -/
def scanRepAux (m : Option Char → List Char → Option (Nat × List Char)) :
    Nat → Option Char → List Char → List Char
  | 0, _, l => l
  | _, _, [] => []
  | fuel + 1, prev, c :: rest =>
    match m prev (c :: rest) with
    | some (k, rep) => rep ++ scanRepAux m fuel ((c :: rest).get? (k - 1)) (rest.drop (k - 1))
    | none => c :: scanRepAux m fuel (some c) rest

/-- Substitution scanner: model of `re.sub pattern rep` for one
concrete pattern, given by its matcher `m`. -/
def scanRep (m : Option Char → List Char → Option (Nat × List Char))
    (l : List Char) : List Char :=
  scanRepAux m l.length none l

/-- Core loop of the collecting scanner. -/
def scanCollectAux (m : List Char → Option (Nat × List Char)) :
    Nat → List Char → List (List Char)
  | 0, _ => []
  | _, [] => []
  | fuel + 1, c :: rest =>
    match m (c :: rest) with
    | some (k, tok) => tok :: scanCollectAux m fuel (rest.drop (k - 1))
    | none => scanCollectAux m fuel rest

/-- Collecting scanner: model of `re.findall` for one concrete pattern. -/
def scanCollect (m : List Char → Option (Nat × List Char)) (l : List Char) :
    List (List Char) :=
  scanCollectAux m l.length l

/-
Name normalizer: `add_spaces_to_card_name` (source lines 222-294).
-/

/-- Camel-case pass of the normalizer (the explicit `while` loop of the
source): insert a space at a lowercase-to-uppercase boundary unless the
previous character is an apostrophe or the character two positions back is a
hyphen.  The two tracked characters are the original previous characters
`name[i-1]` and `name[i-2]`. -/
def camelAux : Option Char → Option Char → List Char → List Char
  | _, _, [] => []
  | p2, some p1, c :: rest =>
    if p1.isLower && c.isUpper && p1 != apos &&
        (match p2 with | some q => q != '-' | none => true) then
      ' ' :: c :: camelAux (some p1) (some c) rest
    else
      c :: camelAux (some p1) (some c) rest
  | _, none, c :: rest => c :: camelAux none (some c) rest

/-- Camel-case pass entry point. -/
def camelPass (l : List Char) : List Char := camelAux none none l

/-- Matcher for `re.sub(r',([^\s])', ', \1')`. -/
def mComma : Option Char → List Char → Option (Nat × List Char)
  | _, ',' :: c :: _ => if pySpace c then none else some (2, [',', ' ', c])
  | _, _ => none

/-- Matcher for `re.sub(r':([A-Za-z])', ': \1')`. -/
def mColon : Option Char → List Char → Option (Nat × List Char)
  | _, ':' :: c :: _ => if c.isAlpha then some (2, [':', ' ', c]) else none
  | _, _ => none

/-- Word-ending alternatives of the preposition rule
`(ion|ter|...|pic)of` of the source (all lowercase; the rule is
case-insensitive). -/
def endingsTable : List (List Char) :=
  ["ion".data, "ter".data, "ler".data, "ant".data, "ent".data, "int".data,
   "ard".data, "ack".data, "ock".data, "uck".data, "ime".data, "ame".data,
   "ome".data, "ple".data, "tle".data, "nce".data, "ise".data, "ose".data,
   "use".data, "ine".data, "one".data, "ure".data, "ire".data, "are".data,
   "ore".data, "ide".data, "ade".data, "ude".data, "ive".data, "ave".data,
   "ove".data, "all".data, "ell".data, "ill".data, "ull".data, "ath".data,
   "eth".data, "ith".data, "oth".data, "uth".data, "lic".data, "ric".data,
   "sic".data, "tic".data, "nic".data, "pic".data]

/-- Matcher for `re.sub(r'(ion|...|pic)of', r'\1 of', flags=IGNORECASE)`:
a three-letter ending from the table followed by `of`; the replacement keeps
the matched ending and appends a literal lowercase ` of`. -/
def mEndingsOf : Option Char → List Char → Option (Nat × List Char)
  | _, c1 :: c2 :: c3 :: c4 :: c5 :: _ =>
    if endingsTable.contains [c1.toLower, c2.toLower, c3.toLower] &&
        c4.toLower == 'o' && c5.toLower == 'f' then
      some (5, [c1, c2, c3, ' ', 'o', 'f'])
    else none
  | _, _ => none

/-- Matcher for `re.sub(r'([^o])sof', r'\1s of', flags=IGNORECASE)`. -/
def mSof : Option Char → List Char → Option (Nat × List Char)
  | _, c :: s :: o :: f :: _ =>
    if c.toLower != 'o' && s.toLower == 's' && o.toLower == 'o' &&
        f.toLower == 'f' then
      some (4, [c, 's', ' ', 'o', 'f'])
    else none
  | _, _ => none

/-- Word-ending alternatives of the `to` rule `(ack|ome|urn)to`. -/
def toWordEndings : List (List Char) := ["ack".data, "ome".data, "urn".data]

/-- Matcher for `re.sub(r'(ack|ome|urn)to', r'\1 to', flags=IGNORECASE)`. -/
def mWordTo : Option Char → List Char → Option (Nat × List Char)
  | _, c1 :: c2 :: c3 :: c4 :: c5 :: _ =>
    if toWordEndings.contains [c1.toLower, c2.toLower, c3.toLower] &&
        c4.toLower == 't' && c5.toLower == 'o' then
      some (5, [c1, c2, c3, ' ', 't', 'o'])
    else none
  | _, _ => none

/-- Case-insensitive prefix test: `pat` (given in lowercase) starts `l`. -/
def ciStarts : List Char → List Char → Bool
  | [], _ => true
  | _, [] => false
  | p :: ps, c :: cs => p == c.toLower && ciStarts ps cs

/-- Word boundary before a word character: start of string or a non-word
previous character. -/
def bndWordOpt : Option Char → Bool
  | none => true
  | some c => !(wordChar c)

/-- Word boundary after a word character: end of string or a non-word
next character. -/
def bndAfter : List Char → Bool
  | [] => true
  | c :: _ => !(wordChar c)

/-- Matcher for `re.sub(r'\bW ?the\b', 'W the', flags=IGNORECASE)` where `W`
is one of the glued prepositions (`of`, `to`, `at`, `in`, `for`, `from`,
`on`, `and`).  The replacement is the literal lowercase phrase. -/
def mPhraseThe (w : List Char) (prev : Option Char) (l : List Char) :
    Option (Nat × List Char) :=
  if bndWordOpt prev && ciStarts w l then
    match l.drop w.length with
    | ' ' :: rest2 =>
      if ciStarts "the".data rest2 && bndAfter (rest2.drop 3) then
        some (w.length + 4, w ++ ' ' :: "the".data)
      else none
    | rest =>
      if ciStarts "the".data rest && bndAfter (rest.drop 3) then
        some (w.length + 3, w ++ ' ' :: "the".data)
      else none
  else none

/-- Matcher for `re.sub(r'\bthe([A-Z])', r'the \1')` (case sensitive). -/
def mTheCap (prev : Option Char) (l : List Char) : Option (Nat × List Char) :=
  match l with
  | 't' :: 'h' :: 'e' :: c :: _ =>
    if bndWordOpt prev && c.isUpper then some (4, ['t', 'h', 'e', ' ', c])
    else none
  | _ => none

/-- Core loop of the whitespace collapse `re.sub(r'\s+', ' ')`: the flag
records whether the previous character was whitespace. -/
def wsCollapseAux : Bool → List Char → List Char
  | _, [] => []
  | pw, c :: rest =>
    if pySpace c then
      if pw then wsCollapseAux true rest else ' ' :: wsCollapseAux true rest
    else c :: wsCollapseAux false rest

/-- Whitespace collapse entry point. -/
def wsCollapse (l : List Char) : List Char := wsCollapseAux false l

/-- Glued prepositions of the `X ?the` repair rules, in source order. -/
def phraseWords : List (List Char) :=
  ["of".data, "to".data, "at".data, "in".data, "for".data, "from".data,
   "on".data, "and".data]

/-- Name normalizer `add_spaces_to_card_name` (source lines 222-294): the
camel-case pass followed by the ordered regex substitutions, a whitespace
collapse and a final strip. -/
def add_spaces_to_card_name (name : List Char) : List Char :=
  if name.isEmpty then name
  else
    let n1 := camelPass name
    let n2 := scanRep mComma n1
    let n3 := scanRep mColon n2
    let n4 := scanRep mEndingsOf n3
    let n5 := scanRep mSof n4
    let n6 := scanRep mWordTo n5
    let n7 := phraseWords.foldl (fun acc w => scanRep (mPhraseThe w) acc) n6
    let n8 := scanRep mTheCap n7
    pyStrip (wsCollapse n8)

/-
Group/name splitter: `extract_set_and_card` (source lines 297-351).
-/

/-- Known set name table `KNOWN_SET_PREFIXES` (source lines 63-99). -/
def KNOWN_SET_PREFIXES : List (List Char) :=
  ["LorwynEclipsed".data,
   "Avatar:TheLastAirbender:Eternal-Legal".data,
   "Avatar:TheLastAirbender".data,
   "MarvelUniverseEternal-Legal".data,
   "Marvel".data ++ apos :: "sSpider-Man".data,
   "EdgeofEternities".data,
   "Commander:EdgeofEternities".data,
   "FINALFANTASY".data,
   "Commander:FINALFANTASY".data,
   "Tarkir:Dragonstorm".data,
   "Commander:Tarkir:Dragonstorm".data,
   "Aetherdrift".data,
   "Phyrexia:AllWillBeOne".data,
   "WaroftheSpark".data,
   "Foundations".data,
   "CommanderLegends:BattleforBaldur".data ++ apos :: "sGate".data,
   "Commander:OutlawsofThunderJunction".data,
   "Commander:StreetsofNewCapenna".data,
   "Commander2016".data,
   "ModernHorizons3".data,
   "RavnicaRemastered".data,
   "TimeSpiral:Remastered".data,
   "TheListReprints".data,
   "MysteryBooster2".data,
   "SecretLairDropSeries".data,
   "SecretLairCountdownKit".data,
   "Urza".data ++ apos :: "sLegacy".data,
   "FromtheVault:Lore".data,
   "PromoPack:OutlawsofThunderJunction".data,
   "PromoPack:MarchoftheMachine".data,
   "PromoPack:Kamigawa:NeonDynasty".data,
   "CommanderMasters".data,
   "Innistrad:MidnightHunt".data,
   "OutlawsofThunderJunction".data,
   "MurdersatKarlovManor".data]

/-- Stable insertion (by length, descending) used to model
`sorted(KNOWN_SET_PREFIXES, key=len, reverse=True)`: an element inserted
later stays after earlier elements of the same length. -/
def insertByLen (x : List Char) : List (List Char) → List (List Char)
  | [] => [x]
  | y :: ys => if x.length ≤ y.length then y :: insertByLen x ys else x :: y :: ys

/-- Known set names sorted longest first (stable), as the source computes. -/
def sorted_prefixes : List (List Char) :=
  KNOWN_SET_PREFIXES.foldl (fun acc x => insertByLen x acc) []

/-- First known set name `p` such that the description starts with `p-`
(the prefix loop of the splitter, source lines 305-307). -/
def findKnownSet (d : List Char) : Option (List Char) :=
  sorted_prefixes.find? (fun p => (p ++ ['-']).isPrefixOf d)

/-- Index of the first hyphen, model of `description.find('-')` restricted
to the found/not-found distinction plus the index. -/
def firstHyphenIdx : List Char → Option Nat
  | [] => none
  | c :: rest => if c = '-' then some 0 else (firstHyphenIdx rest).map Nat.succ

/-- Last-resort split of the splitter (source lines 346-351): split at the
first hyphen if it sits at a positive index, otherwise the sentinel
`Unknown` with the full input as remainder. -/
def naiveSplit (d : List Char) : List Char × List Char :=
  match firstHyphenIdx d with
  | some i => if 0 < i then (d.take i, d.drop (i + 1)) else ("Unknown".data, d)
  | none => ("Unknown".data, d)

/-- Test for the identifier anchor `-#<digit>` at the head of a suffix. -/
def anchorAt : List Char → Bool
  | a :: b :: d :: _ => a = '-' && b = '#' && d.isDigit
  | _ => false

/-- Index of the first `-#<digits>` occurrence, model of
`re.search(r'-#\d+', description)`. -/
def findAnchor : List Char → Option Nat
  | [] => none
  | c :: rest =>
    if anchorAt (c :: rest) then some 0 else (findAnchor rest).map Nat.succ

/-- Model of `str.split('-')`: split into (possibly empty) hyphen-free
parts; the empty string yields one empty part. -/
def splitHyphen : List Char → List (List Char)
  | [] => [[]]
  | c :: rest =>
    if c = '-' then [] :: splitHyphen rest
    else
      match splitHyphen rest with
      | [] => [[c]]
      | q :: qs => (c :: q) :: qs

/-- Model of `'-'.join(parts)`. -/
def joinHyphen : List (List Char) → List Char
  | [] => []
  | p :: rest =>
    match rest with
    | [] => p
    | _ :: _ => p ++ '-' :: joinHyphen rest

/-- Test whether a part starts with a capital letter (`part[0].isupper()`). -/
def headUpper : List Char → Bool
  | c :: _ => c.isUpper
  | [] => false

/-- Group-continuation words of the anchor fallback (source line 335). -/
def setContWords : List (List Char) :=
  ["Commander".data, "Eternal".data, "Legal".data, "Remastered".data,
   "Promo".data]

/-- Test `any(part.startswith(x) for x in [...])` of the anchor fallback. -/
def isSetContPart (p : List Char) : Bool :=
  setContWords.any (fun w => w.isPrefixOf p)

/-- Left-to-right walk of the anchor fallback (source lines 329-341): parts
accumulate on the set side until a part at a positive index starts with an
uppercase letter and is not a group-continuation word; that part and all
following parts form the card side. -/
def walkAux : Nat → List (List Char) → List (List Char) × List (List Char)
  | _, [] => ([], [])
  | j, p :: rest =>
    if j != 0 && !p.isEmpty && headUpper p && !isSetContPart p then
      ([], p :: rest)
    else
      let sc := walkAux (j + 1) rest
      (p :: sc.1, sc.2)

/-- Group/name splitter `extract_set_and_card` (source lines 297-351):
known-prefix match, then the anchor fallback, then the naive last resort. -/
def extract_set_and_card (description : List Char) : List Char × List Char :=
  match findKnownSet description with
  | some p => (p, description.drop (p.length + 1))
  | none =>
    match findAnchor description with
    | some idx =>
      let parts := splitHyphen (description.take idx)
      if 2 ≤ parts.length then
        let sc := walkAux 0 parts
        if !sc.1.isEmpty && !sc.2.isEmpty then
          (joinHyphen sc.1, joinHyphen sc.2 ++ description.drop idx)
        else naiveSplit description
      else naiveSplit description
    | none => naiveSplit description

/-
Field extractor: `parse_card_line` (source lines 354-503).
-/

/-- Matcher for the price token pattern `\$(\d+\.?\d*)` (used both by
`re.findall` for the prices and by `re.sub` for their removal): a dollar
sign, one or more digits, an optional dot, further digits.  The returned
token is the captured group, without the dollar sign. -/
def mDollarTok : List Char → Option (Nat × List Char)
  | [] => none
  | c :: rest =>
    if c = '$' then
      let ds := rest.takeWhile Char.isDigit
      if ds.isEmpty then none
      else
        match rest.drop ds.length with
        | '.' :: r2 =>
          let fs := r2.takeWhile Char.isDigit
          some (1 + ds.length + 1 + fs.length, ds ++ '.' :: fs)
        | _ => some (1 + ds.length, ds)
    else none

/-- Price tokens of a line, model of `re.findall(r"\$(\d+\.?\d*)", line)`. -/
def pricesOf (l : List Char) : List (List Char) := scanCollect mDollarTok l

/-- Price removal, model of `re.sub(r'\$\d+\.?\d*', '', line)`. -/
def removeDollars (l : List Char) : List Char :=
  scanRep (fun _ t => (mDollarTok t).map (fun p => (p.1, ([] : List Char)))) l

/-- Value of a price token, model of `float(tok)` (exact, as a rational). -/
def pyFloat (tok : List Char) : ℚ :=
  let ds := tok.takeWhile Char.isDigit
  match tok.drop ds.length with
  | '.' :: fs =>
    let fd := fs.takeWhile Char.isDigit
    Rat.divInt ((natOfDigits ds * 10 ^ fd.length + natOfDigits fd : Nat) : Int)
      ((10 ^ fd.length : Nat) : Int)
  | _ => Rat.divInt ((natOfDigits ds : Nat) : Int) 1

/-- Unit price and line total from the collected tokens (source lines
373-378): with at least two tokens the second-to-last and the last,
otherwise both `0.0`. -/
def pricePair (ps : List (List Char)) : ℚ × ℚ :=
  match ps.reverse with
  | a :: b :: _ => (pyFloat b, pyFloat a)
  | _ => (0, 0)

/-- Model of `re.search(r'Magic-(.+)', s)`: the first occurrence of
`Magic-` followed by at least one non-newline character; the returned group
is the greedy `.+`, everything up to the next newline or the end. -/
def findMagic : List Char → Option (List Char)
  | [] => none
  | c :: rest =>
    if "Magic-".data.isPrefixOf (c :: rest) then
      match (c :: rest).drop 6 with
      | d :: tl =>
        if d = '\n' then findMagic rest
        else some ((d :: tl).takeWhile (fun x => x != '\n'))
      | [] => findMagic rest
    else findMagic rest

/-- Head test for `#<digits>`. -/
def matchHash : List Char → Option (List Char)
  | a :: d :: rest =>
    if a = '#' && d.isDigit then some ((d :: rest).takeWhile Char.isDigit)
    else none
  | _ => none

/-- First `#<digits>` in a suffix with its position, model of
`re.search(r'#(\d+)', remainder)`; the position equals the value of
`remainder.find('#' + collector_number)` computed by the source, since no
earlier occurrence of that substring can exist. -/
def findHashPos : List Char → Option (Nat × List Char)
  | [] => none
  | c :: rest =>
    match matchHash (c :: rest) with
    | some ds => some (0, ds)
    | none => (findHashPos rest).map (fun p => (p.1 + 1, p.2))

/-- Rarity letters `M/R/U/C/S`. -/
def isRarityChar (c : Char) : Bool :=
  c = 'M' || c = 'R' || c = 'U' || c = 'C' || c = 'S'

/-- Head test for the primary rarity pattern `-([MRUCS])-`. -/
def matchRarA : List Char → Option Char
  | '-' :: c :: '-' :: _ => if isRarityChar c then some c else none
  | _ => none

/-- First match of `-([MRUCS])-` with its position. -/
def rarityScanA : List Char → Option (Nat × Char)
  | [] => none
  | c :: rest =>
    match matchRarA (c :: rest) with
    | some r => some (0, r)
    | none => (rarityScanA rest).map (fun p => (p.1 + 1, p.2))

/-- Keyword alternatives of the secondary rarity pattern
`(?:$|-?Near|-?Lightly|-?Moderately|-?Heavily|-?Foil)`. -/
def rarFollowers : List (List Char) :=
  ["Near".data, "-Near".data, "Lightly".data, "-Lightly".data,
   "Moderately".data, "-Moderately".data, "Heavily".data, "-Heavily".data,
   "Foil".data, "-Foil".data]

/-- Head test for the secondary rarity pattern
`-([MRUCS])(?:$|-?Near|-?Lightly|-?Moderately|-?Heavily|-?Foil)`. -/
def matchRarB : List Char → Option Char
  | '-' :: c :: rest =>
    if isRarityChar c &&
        (rest.isEmpty || rarFollowers.any (fun w => w.isPrefixOf rest)) then
      some c
    else none
  | _ => none

/-- First match of the secondary rarity pattern with its position. -/
def rarityScanB : List Char → Option (Nat × Char)
  | [] => none
  | c :: rest =>
    match matchRarB (c :: rest) with
    | some r => some (0, r)
    | none => (rarityScanB rest).map (fun p => (p.1 + 1, p.2))

/-- Head test for the wrap-displaced rarity pattern
`\$\d+\.?\d*([MRUCS])-` on the full line. -/
def matchRarC : List Char → Option Char
  | [] => none
  | c0 :: rest =>
    if c0 = '$' then
      let ds := rest.takeWhile Char.isDigit
      if ds.isEmpty then none
      else
        let r1 := rest.drop ds.length
        let r2 := match r1 with
          | '.' :: r2a => r2a.drop (r2a.takeWhile Char.isDigit).length
          | _ => r1
        match r2 with
        | c :: '-' :: _ => if isRarityChar c then some c else none
        | _ => none
    else none

/-- First match of the wrap-displaced rarity pattern with its position. -/
def rarityScanC : List Char → Option (Nat × Char)
  | [] => none
  | c :: rest =>
    match matchRarC (c :: rest) with
    | some r => some (0, r)
    | none => (rarityScanC rest).map (fun p => (p.1 + 1, p.2))

/-- Rarity search chain (source lines 402-410): the primary and secondary
patterns on the remainder, then the wrap-displaced pattern on the full line.
The position is reported in whichever string the winning pattern scanned,
exactly as `rarity_match.start()` behaves in the source. -/
def rarityInfo (remainder line : List Char) : Option (Nat × Char) :=
  match rarityScanA remainder with
  | some pc => some pc
  | none =>
    match rarityScanB remainder with
    | some pc => some pc
    | none => rarityScanC line

/-- Model of `str.rstrip('-')`. -/
def rstripHyphen (l : List Char) : List Char :=
  (l.reverse.dropWhile (fun c => c == '-')).reverse

/-- Card-name span before the collector number (source lines 451-463):
the text before the first `#<digits>` (trailing hyphens stripped), else the
text before the rarity match (note that a rarity found by the wrap-displaced
pattern reports a position in the full line, which the source nevertheless
uses to slice the remainder), else the first hyphen-free token. -/
def cardNamePart (remainder line : List Char) : List Char :=
  match findHashPos remainder with
  | some pd => rstripHyphen (remainder.take pd.1)
  | none =>
    match rarityInfo remainder line with
    | some pc => rstripHyphen (remainder.take pc.1)
    | none => remainder.takeWhile (fun c => c != '-')

/-- Head test for the variant pattern `\(([^)]+)\)`. -/
def matchVar : List Char → Option (List Char)
  | '(' :: rest =>
    let g := rest.takeWhile (fun c => c != ')')
    if g.isEmpty then none
    else if (rest.drop g.length).head? = some ')' then some g else none
  | _ => none

/-- First parenthesized segment with its position, model of
`re.search(r'\(([^)]+)\)', card_name_part)`. -/
def scanVariant : List Char → Option (Nat × List Char)
  | [] => none
  | c :: rest =>
    match matchVar (c :: rest) with
    | some g => some (0, g)
    | none => (scanVariant rest).map (fun p => (p.1 + 1, p.2))

/-- Condition extraction (source lines 416-422): ordered keyword checks on
the full line with `Near Mint` as the default. -/
def condOf (l : List Char) : List Char :=
  if hasSub l "LightlyPlayed".data || hasSub l "Lightly Played".data then
    "Lightly Played".data
  else if hasSub l "ModeratelyPlayed".data || hasSub l "Moderately Played".data then
    "Moderately Played".data
  else if hasSub l "HeavilyPlayed".data || hasSub l "Heavily Played".data then
    "Heavily Played".data
  else "Near Mint".data

/-- Boundary class `[-\s]` of the language patterns. -/
def bndLangChar (c : Char) : Bool := c = '-' || pySpace c

/-- Occurrence of `w` with a `[-\s]` character on both sides, model of the
`[-\s]W[-\s]` alternative of a language pattern. -/
def hasBoundedBoth (w : List Char) : List Char → Bool
  | [] => false
  | c :: rest =>
    (bndLangChar c && w.isPrefixOf rest &&
      (match rest.drop w.length with
       | d :: _ => bndLangChar d
       | [] => false)) ||
    hasBoundedBoth w rest

/-- Model of the `W$` alternative: `$` matches at the end of the string or
just before a trailing newline. -/
def endsMatch (w l : List Char) : Bool :=
  w.isSuffixOf l || (w ++ ['\n']).isSuffixOf l

/-- Model of a full-language-name pattern `[-\s]W[-\s]|W$`. -/
def pmFull (w : List Char) (l : List Char) : Bool :=
  hasBoundedBoth w l || endsMatch w l

/-- Language pattern table (source lines 431-444), each regex compiled to
its matcher, in source order. -/
def language_patterns : List ((List Char → Bool) × List Char) :=
  [(pmFull "Japanese".data, "Japanese".data),
   (pmFull "German".data, "German".data),
   (pmFull "French".data, "French".data),
   (pmFull "Italian".data, "Italian".data),
   (pmFull "Spanish".data, "Spanish".data),
   (pmFull "Portuguese".data, "Portuguese".data),
   (pmFull "Russian".data, "Russian".data),
   (pmFull "Korean".data, "Korean".data),
   (fun l => hasSub l "ChineseSimplified".data || hasSub l "SimplifiedChinese".data,
    "Chinese (Simplified)".data),
   (fun l => hasSub l "ChineseTraditional".data || hasSub l "TraditionalChinese".data,
    "Chinese (Traditional)".data),
   (pmFull "Phyrexian".data, "Phyrexian".data)]

/-- First matching pattern wins (the `for`/`break` loop of source lines
445-448). -/
def firstLang : List ((List Char → Bool) × List Char) → List Char →
    Option (List Char)
  | [], _ => none
  | p :: rest, l => if p.1 l then some p.2 else firstLang rest l

/-- Entry-start shape `^\d+\s+Magic-` checked with `re.match` (source lines
359 and 667). -/
def matchesCardStart (l : List Char) : Bool :=
  let ds := l.takeWhile Char.isDigit
  let r1 := l.drop ds.length
  let ws := r1.takeWhile pySpace
  !ds.isEmpty && !ws.isEmpty && "Magic-".data.isPrefixOf (r1.drop ws.length)

/-- Structured record produced for one parsed line, the `Card` dataclass of
the source (classification fields keep their construction defaults). -/
structure Card where
  quantity : Nat
  set_name : List Char
  card_name : List Char
  collector_number : List Char
  rarity : List Char
  condition : List Char
  is_foil : Bool
  price : ℚ
  total_price : ℚ
  variant : Option (List Char)
  language : Option (List Char)
  color : List Char := "Colorless".data
  image_url : Option (List Char) := none
deriving DecidableEq

/-- Display fixups of the set name (source lines 480-489):
`add_spaces_to_card_name`, then the literal replacements, then a whitespace
collapse. -/
def displaySet (set_name : List Char) : List Char :=
  let s0 := add_spaces_to_card_name set_name
  let s1 := scanRep (fun _ l =>
    if "FINALFANTASY".data.isPrefixOf l then some (12, "FINAL FANTASY".data)
    else none) s0
  let s2 := scanRep (fun _ l =>
    if "Phyrexia:All Will Be One".data.isPrefixOf l then
      some (24, "Phyrexia: All Will Be One".data)
    else none) s1
  let s3 := scanRep (fun _ l =>
    if "Avatar:The Last Airbender".data.isPrefixOf l then
      some (25, "Avatar: The Last Airbender".data)
    else none) s2
  let s4 := scanRep (fun _ l =>
    if "Tarkir:Dragonstorm".data.isPrefixOf l then
      some (18, "Tarkir: Dragonstorm".data)
    else none) s3
  let s5 := scanRep (fun _ l =>
    if "Commander:".data.isPrefixOf l then some (10, "Commander: ".data)
    else none) s4
  let s6 := scanRep (fun _ l =>
    if "Promo Pack:".data.isPrefixOf l then some (11, "Promo Pack: ".data)
    else none) s5
  let s7 := scanRep (fun _ l =>
    if "From the Vault:".data.isPrefixOf l then
      some (15, "From the Vault: ".data)
    else none) s6
  wsCollapse s7

/-- Record assembly for a line that passed all guards (source lines
364-503), given the stripped line and the raw `Magic-` group. -/
def buildCard (l rawDesc : List Char) : Card :=
  let full_description := pyStrip rawDesc
  let sr := extract_set_and_card full_description
  let remainder := sr.2
  let pq := pricePair (pricesOf l)
  let collector_number :=
    match findHashPos remainder with
    | some pd => pd.2
    | none => []
  let rarity :=
    match rarityInfo remainder l with
    | some pc => [pc.2]
    | none => "R".data
  let cnp := cardNamePart remainder l
  let card_name0 :=
    match scanVariant cnp with
    | some pg => pyStrip (cnp.take pg.1)
    | none => cnp
  { quantity := natOfDigits (l.takeWhile Char.isDigit)
    set_name := displaySet sr.1
    card_name := add_spaces_to_card_name card_name0
    collector_number := collector_number
    rarity := rarity
    condition := condOf l
    is_foil := hasSub l "Foil".data
    price := pq.1
    total_price := pq.2
    variant := (scanVariant cnp).map (fun pg => add_spaces_to_card_name pg.2)
    language := firstLang language_patterns l }

/-- Line parser `parse_card_line` (source lines 354-503): strip, the
entry-shape guard, the header-word guard, the quantity guard, the search for
the `Magic-` group on the price-stripped line, then total record assembly. -/
def parse_card_line (line : List Char) : Option Card :=
  let l := pyStrip line
  if !matchesCardStart l then none
  else if hasSub l "Quantity".data || hasSub l "Description".data then none
  else if (l.takeWhile Char.isDigit).isEmpty then none
  else
    match findMagic (removeDollars l) with
    | none => none
    | some rawDesc => some (buildCard l rawDesc)

/-
Continuation merger: `merge_continuation_lines` (source lines 639-681).
-/

/-- Page-noise header test (source line 653). -/
def isNoiseLine (l : List Char) : Bool :=
  "Quantity Description".data.isPrefixOf l || "OrderNumber:".data.isPrefixOf l

/-- Trailing summary test `^\d+\s+Total\s+\$` (source line 660). -/
def isTotalLine (l : List Char) : Bool :=
  let ds := l.takeWhile Char.isDigit
  let r1 := l.drop ds.length
  let ws := r1.takeWhile pySpace
  let r2 := r1.drop ws.length
  let r3 := r2.drop 5
  let ws2 := r3.takeWhile pySpace
  !ds.isEmpty && !ws.isEmpty && "Total".data.isPrefixOf r2 &&
    !ws2.isEmpty && "$".data.isPrefixOf (r3.drop ws2.length)

/-- Core loop of the merger, with the currently open entry as state. -/
def mergeAux : List (List Char) → List Char → List (List Char)
  | [], cur => if cur.isEmpty then [] else [cur]
  | l :: rest, cur =>
    let s := pyStrip l
    if s.isEmpty then mergeAux rest cur
    else if isNoiseLine s then
      if cur.isEmpty then mergeAux rest [] else cur :: mergeAux rest []
    else if isTotalLine s then
      if cur.isEmpty then mergeAux rest [] else cur :: mergeAux rest []
    else if matchesCardStart s then
      if cur.isEmpty then mergeAux rest s else cur :: mergeAux rest s
    else if cur.isEmpty then mergeAux rest cur
    else mergeAux rest (cur ++ s)

/-- Continuation merger `merge_continuation_lines` (source lines 639-681). -/
def merge_continuation_lines (lines : List (List Char)) : List (List Char) :=
  mergeAux lines []

/-
Specification-side definitions, written from the wording of the claims for
comparison with the embedded source functions.
-/

/-- Break lines of the merger: a page-noise header, a trailing total
summary, or a new entry start all close the open entry. -/
def isBreakLine (l : List Char) : Bool :=
  isNoiseLine l || isTotalLine l || matchesCardStart l

/-- Continuation text of one entry as the claim describes it: the
concatenation of the lines following an entry start up to the next
entry-start line, noise line, or end of input (blank lines are dropped),
together with the lines remaining after that point. -/
def grabEntry : List (List Char) → List Char × List (List Char)
  | [] => ([], [])
  | l :: rest =>
    if l.isEmpty then grabEntry rest
    else if isBreakLine l then ([], l :: rest)
    else ((l ++ (grabEntry rest).1), (grabEntry rest).2)

/-- Lines remaining after grabbing an entry are a suffix of the input. -/
theorem grabEntry_snd_length : ∀ ls : List (List Char),
    (grabEntry ls).2.length ≤ ls.length := by
  intro ls
  induction ls with
  | nil => simp [grabEntry]
  | cons l rest ih =>
    simp only [grabEntry]
    split
    · exact Nat.le_succ_of_le ih
    · split
      · simp
      · exact Nat.le_succ_of_le ih

/-- Merged entries as the claim describes them: one entry per entry-start
line, in order, each the concatenation of its start line and its
continuation lines. -/
def mergedEntriesSpec : List (List Char) → List (List Char)
  | [] => []
  | l :: rest =>
    if matchesCardStart l then
      (l ++ (grabEntry rest).1) :: mergedEntriesSpec (grabEntry rest).2
    else mergedEntriesSpec rest
termination_by ls => ls.length
decreasing_by
  · exact Nat.lt_succ_of_le (grabEntry_snd_length _)
  · exact Nat.lt_succ_of_le (Nat.le_refl _)

/-- Claim-side boundary class for language keywords: a hyphen or a space. -/
def bndEdgeOpt : Option Char → Bool
  | none => true
  | some c => bndLangChar c

/-- Core loop of the claim-side bounded-occurrence test, carrying the
previous character. -/
def specBoundedAux (w : List Char) : Option Char → List Char → Bool
  | _, [] => false
  | prev, c :: rest =>
    (bndEdgeOpt prev && w.isPrefixOf (c :: rest) &&
      (match (c :: rest).drop w.length with
       | [] => true
       | d :: _ => bndLangChar d)) ||
    specBoundedAux w (some c) rest

/-- Claim-side occurrence test for a language keyword: the keyword occurs
bounded by a hyphen, a space, or a string edge on each side. -/
def specBounded (w l : List Char) : Bool := specBoundedAux w none l

/-- Claim-side language keyword table, in the order of the source table. -/
def specLangTable : List (List (List Char) × List Char) :=
  [(["Japanese".data], "Japanese".data),
   (["German".data], "German".data),
   (["French".data], "French".data),
   (["Italian".data], "Italian".data),
   (["Spanish".data], "Spanish".data),
   (["Portuguese".data], "Portuguese".data),
   (["Russian".data], "Russian".data),
   (["Korean".data], "Korean".data),
   (["ChineseSimplified".data, "SimplifiedChinese".data],
    "Chinese (Simplified)".data),
   (["ChineseTraditional".data, "TraditionalChinese".data],
    "Chinese (Traditional)".data),
   (["Phyrexian".data], "Phyrexian".data)]

/-- Claim-side first-match-wins localization lookup. -/
def specFirstLang : List (List (List Char) × List Char) → List Char →
    Option (List Char)
  | [], _ => none
  | e :: rest, l =>
    if e.1.any (fun w => specBounded w l) then some e.2
    else specFirstLang rest l

/-- Claim-side localization tag of a line: the first table entry one of
whose keywords occurs bounded by hyphen, space, or string edge on each side. -/
def specLangOf (l : List Char) : Option (List Char) :=
  specFirstLang specLangTable l

/-- Representative already-well-spaced inputs from the specification
scenarios and tables, used to state the amended idempotence claim. -/
def normalizerScenarioInputs : List (List Char) :=
  ["Abigale,EloquentFirst-Year".data,
   "EloquentFirst-Year".data,
   "Abigale, Eloquent First-Year".data,
   "Some Name".data,
   "SomeName".data,
   "Foundations".data,
   "WaroftheSpark".data,
   "of the".data,
   "Phyrexia:AllWillBeOne".data,
   "ExtendedArt".data]

/-- Record demanded by the scenario of claim C6. -/
def scenarioACard : Card :=
  { quantity := 4
    set_name := "Foundations".data
    card_name := "Some Name".data
    collector_number := "123".data
    rarity := "R".data
    condition := "Near Mint".data
    is_foil := false
    price := Rat.divInt 1 2
    total_price := 2
    variant := none
    language := none }

/-
Shared lemmas.
-/

/-- Every known set name is non-empty. -/
theorem sorted_prefixes_ne_nil : ∀ p ∈ sorted_prefixes, p ≠ [] := by decide

/-- A description whose tail has no hyphen matches no known set name,
because a known-prefix match places a hyphen at a positive index. -/
theorem findKnownSet_eq_none {d : List Char} (h : '-' ∉ d.tail) :
    findKnownSet d = none := by
  apply List.find?_eq_none.mpr
  intro p hp
  simp only [Bool.not_eq_true]
  rw [Bool.eq_false_iff]
  intro hpre
  rw [List.isPrefixOf_iff_prefix] at hpre
  obtain ⟨t, ht⟩ := hpre
  have hpne : p ≠ [] := sorted_prefixes_ne_nil p hp
  apply h
  cases p with
  | nil => exact absurd rfl hpne
  | cons a q =>
    rw [← ht]
    simp

/-- A hyphen-free string has no identifier anchor. -/
theorem findAnchor_eq_none {l : List Char} (h : '-' ∉ l) : findAnchor l = none := by
  induction l with
  | nil => rfl
  | cons c rest ih =>
    have hc : ¬(c = '-') := fun e => h (by simp [e])
    have hr : '-' ∉ rest := fun m => h (List.mem_cons_of_mem _ m)
    have ha : anchorAt (c :: rest) = false := by
      cases rest with
      | nil => rfl
      | cons b r2 =>
        cases r2 with
        | nil => rfl
        | cons d r3 => simp [anchorAt, hc]
    simp [findAnchor, ha, ih hr]

/-- A hyphen-free string has no first hyphen. -/
theorem firstHyphenIdx_eq_none {l : List Char} (h : '-' ∉ l) :
    firstHyphenIdx l = none := by
  induction l with
  | nil => rfl
  | cons c rest ih =>
    have hc : ¬(c = '-') := fun e => h (by simp [e])
    simp [firstHyphenIdx, hc, ih (fun m => h (List.mem_cons_of_mem _ m))]

/-
Claim C1.
-/

/-- Claim C1, counterexample: the normalizer is not idempotent.  On the
input `,,,` the comma-spacing substitution consumes the second comma as part
of the first match, so the second and third commas stay glued; a second
application separates them, changing the output again. -/
theorem normalizer_not_idempotent :
    add_spaces_to_card_name (add_spaces_to_card_name ",,,".data) ≠
      add_spaces_to_card_name ",,,".data := by decide

/-- Claim C1, amended: the normalizer is idempotent on the already
well-spaced representative inputs of the specification scenarios (it is not
idempotent on every string). -/
theorem normalizer_idempotent_on_scenarios :
    (normalizerScenarioInputs.all fun s =>
      add_spaces_to_card_name (add_spaces_to_card_name s) ==
        add_spaces_to_card_name s) = true := by decide

/-
Claim C2.
-/

/-- Claim C2, counterexample: the input `abc-def` has no identifier anchor
and no known prefix, yet the splitter returns `(abc, def)` via the naive
first-hyphen fallback, not `Unknown` with the full input; moreover on
`-Xyz-#12` the splitter returns an empty group label. -/
theorem splitter_unknown_claim_cex :
    findKnownSet "abc-def".data = none ∧ findAnchor "abc-def".data = none ∧
    extract_set_and_card "abc-def".data ≠ ("Unknown".data, "abc-def".data) ∧
    (extract_set_and_card "-Xyz-#12".data).1 = [] := by decide

/-- Claim C2, amended: for every input with no hyphen after its first
character the splitter returns the group `Unknown` and a remainder equal to
the full input (and, being a total function, it always terminates; the
group label, however, can be empty on some inputs). -/
theorem splitter_unknown_no_inner_hyphen :
    ∀ d : List Char, '-' ∉ d.tail →
      extract_set_and_card d = ("Unknown".data, d) := by
  intro d h
  have hk : findKnownSet d = none := findKnownSet_eq_none h
  cases d with
  | nil => simp [extract_set_and_card, hk, findAnchor, naiveSplit, firstHyphenIdx]
  | cons c rest =>
    have hrest : '-' ∉ rest := by simpa using h
    by_cases hc : anchorAt (c :: rest) = true
    · have hcdash : c = '-' := by
        cases rest with
        | nil => simp [anchorAt] at hc
        | cons b r2 =>
          cases r2 with
          | nil => simp [anchorAt] at hc
          | cons d2 r3 =>
            simp only [anchorAt, Bool.and_eq_true, decide_eq_true_eq] at hc
            exact hc.1.1
      have hfa : findAnchor (c :: rest) = some 0 := by simp [findAnchor, hc]
      subst hcdash
      simp [extract_set_and_card, hk, hfa, splitHyphen, naiveSplit,
        firstHyphenIdx]
    · have hfa : findAnchor (c :: rest) = none := by
        simp [findAnchor, hc, findAnchor_eq_none hrest]
      by_cases hcd : c = '-'
      · subst hcd
        simp [extract_set_and_card, hk, hfa, naiveSplit, firstHyphenIdx]
      · simp [extract_set_and_card, hk, hfa, naiveSplit, firstHyphenIdx, hcd,
          firstHyphenIdx_eq_none hrest]

/-- Witness for the amended claim C2 at the concrete input `abc#12`. -/
theorem splitter_unknown_no_inner_hyphen_witness :
    '-' ∉ "abc#12".data.tail ∧
      extract_set_and_card "abc#12".data = ("Unknown".data, "abc#12".data) :=
  ⟨by decide, splitter_unknown_no_inner_hyphen "abc#12".data (by decide)⟩

/-
Claim C3.
-/

/-- Claim C3, counterexample: on `abc-def-#12` the walk before the anchor
never finds a card-name part (both parts stay on the set side), but the
returned group is `abc`, not all parts `abc-def`: the anchor branch is
abandoned and the naive first-hyphen fallback splits instead. -/
theorem anchor_walk_claim_cex :
    walkAux 0 (splitHyphen "abc-def".data) = (["abc".data, "def".data], []) ∧
    extract_set_and_card "abc-def-#12".data = ("abc".data, "def-#12".data) ∧
    (extract_set_and_card "abc-def-#12".data).1 ≠ "abc-def".data := by decide

/-- Claim C3, amended: when the input has an anchor, no known prefix, at
least two hyphen-separated parts before the anchor, and the left-to-right
walk never finds a card-name part, the anchor fallback is abandoned and the
splitter returns the naive first-hyphen split instead of keeping all parts
on the group side. -/
theorem anchor_walk_no_trigger_naive :
    ∀ (d : List Char) (i : Nat), findKnownSet d = none → findAnchor d = some i →
      2 ≤ (splitHyphen (d.take i)).length →
      (walkAux 0 (splitHyphen (d.take i))).2 = [] →
      extract_set_and_card d = naiveSplit d := by
  intro d i hk ha hlen hwalk
  simp [extract_set_and_card, hk, ha, hlen, hwalk]

/-- Witness for the amended claim C3 at the concrete input `abc-def-#12`. -/
theorem anchor_walk_no_trigger_naive_witness :
    extract_set_and_card "abc-def-#12".data = naiveSplit "abc-def-#12".data :=
  anchor_walk_no_trigger_naive "abc-def-#12".data 7 (by decide) (by decide)
    (by decide) (by decide)

/-
Claim C6.
-/

/-- Claim C6: the scenario entry parses to quantity 4, set name
`Foundations` (which contains `Foundations`), collector number `123`,
rarity `R`, no foil, condition `Near Mint`, unit price `0.50` and line
total `2.00`. -/
theorem scenario_a_parse :
    parse_card_line
        "4 Magic-Foundations-SomeName-#123-R-NearMint $0.50 $2.00".data =
      some scenarioACard ∧
    hasSub scenarioACard.set_name "Foundations".data = true := by decide

/-
Claim C7 counterexample.
-/

/-- Claim C7, counterexample: in the `Unknown` fallback the group label is
a sentinel, not text of the input, so concatenating group and remainder
(with or without a separating hyphen) does not reconstruct the input. -/
theorem split_reconstruction_cex :
    extract_set_and_card "abc".data = ("Unknown".data, "abc".data) ∧
    "Unknown".data ++ "abc".data ≠ "abc".data ∧
    "Unknown".data ++ '-' :: "abc".data ≠ "abc".data := by decide

/-
Claim C7: reconstruction lemmas and the amended theorem.
-/

/-- Splitting on hyphens never yields an empty list of parts. -/
theorem splitHyphen_ne_nil : ∀ l : List Char, splitHyphen l ≠ [] := by
  intro l
  induction l with
  | nil => simp [splitHyphen]
  | cons c rest ih =>
    simp only [splitHyphen]
    split
    · simp
    · split
      · simp
      · simp

/-- Joining after prepending a character to the first part prepends the
character to the join. -/
theorem joinHyphen_cons_cons (c : Char) (q : List Char) (qs : List (List Char)) :
    joinHyphen ((c :: q) :: qs) = c :: joinHyphen (q :: qs) := by
  cases qs with
  | nil => rfl
  | cons x xs => simp [joinHyphen]

/-- Joining undoes splitting on hyphens. -/
theorem joinHyphen_splitHyphen : ∀ l : List Char,
    joinHyphen (splitHyphen l) = l := by
  intro l
  induction l with
  | nil => rfl
  | cons c rest ih =>
    by_cases hc : c = '-'
    · subst hc
      obtain ⟨q, qs, hq⟩ := List.exists_cons_of_ne_nil (splitHyphen_ne_nil rest)
      have h1 : splitHyphen ('-' :: rest) = [] :: splitHyphen rest := by
        simp [splitHyphen]
      rw [h1, hq]
      have h2 : joinHyphen ([] :: q :: qs) = '-' :: joinHyphen (q :: qs) := rfl
      rw [h2, ← hq, ih]
    · simp only [splitHyphen, if_neg hc]
      obtain ⟨q, qs, hq⟩ := List.exists_cons_of_ne_nil (splitHyphen_ne_nil rest)
      rw [hq, joinHyphen_cons_cons, ← hq, ih]

/-- Joining distributes over appending two non-empty part lists, consuming
one separating hyphen. -/
theorem joinHyphen_append : ∀ (a b : List (List Char)), a ≠ [] → b ≠ [] →
    joinHyphen (a ++ b) = joinHyphen a ++ '-' :: joinHyphen b := by
  intro a
  induction a with
  | nil => intro b h; exact absurd rfl h
  | cons p a' ih =>
    intro b _ hb
    obtain ⟨q, qs, hq⟩ := List.exists_cons_of_ne_nil hb
    cases a' with
    | nil => simp [joinHyphen, hq]
    | cons x a'' =>
      have h1 : joinHyphen (p :: x :: a'') = p ++ '-' :: joinHyphen (x :: a'') := rfl
      have h2 : joinHyphen (p :: (x :: a'' ++ b)) =
          p ++ '-' :: joinHyphen (x :: a'' ++ b) := rfl
      rw [List.cons_append, h2, ih b (by simp) hb, h1]
      simp

/-- The walk of the anchor fallback partitions the parts. -/
theorem walkAux_append : ∀ (ps : List (List Char)) (j : Nat),
    (walkAux j ps).1 ++ (walkAux j ps).2 = ps := by
  intro ps
  induction ps with
  | nil => intro j; rfl
  | cons p rest ih =>
    intro j
    simp only [walkAux]
    split
    · simp
    · simp [ih (j + 1)]

/-- Splitting at the first hyphen reconstructs the string around it. -/
theorem firstHyphenIdx_spec : ∀ (l : List Char) (i : Nat),
    firstHyphenIdx l = some i → l.take i ++ '-' :: l.drop (i + 1) = l := by
  intro l
  induction l with
  | nil => intro i h; simp [firstHyphenIdx] at h
  | cons c rest ih =>
    intro i h
    by_cases hc : c = '-'
    · simp only [firstHyphenIdx, if_pos hc] at h
      cases h
      simp [hc]
    · simp only [firstHyphenIdx, if_neg hc, Option.map_eq_some'] at h
      obtain ⟨i', hi', rfl⟩ := h
      simp only [List.take_succ_cons, List.drop_succ_cons, List.cons_append,
        List.cons.injEq, true_and]
      exact ih i' hi'

/-- Last-resort split: either the sentinel result or a reconstruction with
one consumed hyphen. -/
theorem naiveSplit_spec (d : List Char) :
    naiveSplit d = ("Unknown".data, d) ∨
      (naiveSplit d).1 ++ '-' :: (naiveSplit d).2 = d := by
  unfold naiveSplit
  cases hfh : firstHyphenIdx d with
  | none => left; rfl
  | some i =>
    by_cases hi : 0 < i
    · right
      simp only [if_pos hi]
      exact firstHyphenIdx_spec d i hfh
    · left
      simp [if_neg hi]

/-- Claim C7, amended: for every splitter input, either the `Unknown`
sentinel fallback applies (the group is the sentinel and the remainder is
the full input), or concatenating the group and the remainder with a single
separating hyphen reconstructs the input with no characters dropped. -/
theorem split_reconstruction :
    ∀ d : List Char,
      ((extract_set_and_card d).1 = "Unknown".data ∧
        (extract_set_and_card d).2 = d) ∨
      (extract_set_and_card d).1 ++ '-' :: (extract_set_and_card d).2 = d := by
  intro d
  cases hfk : findKnownSet d with
  | some p =>
    right
    have hpred := List.find?_some hfk
    rw [List.isPrefixOf_iff_prefix] at hpred
    obtain ⟨t, ht⟩ := hpred
    have hdrop : d.drop (p.length + 1) = t := by
      rw [← ht]
      have : p.length + 1 = (p ++ ['-']).length := by simp
      rw [this, List.drop_left]
    simp only [extract_set_and_card, hfk, hdrop]
    rw [← ht]
    simp
  | none =>
    cases hfa : findAnchor d with
    | some idx =>
      by_cases hlen : 2 ≤ (splitHyphen (d.take idx)).length
      · cases hg : (!(walkAux 0 (splitHyphen (d.take idx))).1.isEmpty &&
            !(walkAux 0 (splitHyphen (d.take idx))).2.isEmpty) with
        | true =>
          right
          have he : extract_set_and_card d =
              (joinHyphen (walkAux 0 (splitHyphen (d.take idx))).1,
                joinHyphen (walkAux 0 (splitHyphen (d.take idx))).2 ++
                  d.drop idx) := by
            simp [extract_set_and_card, hfk, hfa, hlen, hg]
          rw [he]
          simp only [Bool.and_eq_true, Bool.not_eq_true',
            List.isEmpty_eq_false] at hg
          have hw := walkAux_append (splitHyphen (d.take idx)) 0
          have hj := joinHyphen_append _ _ hg.1 hg.2
          calc joinHyphen (walkAux 0 (splitHyphen (d.take idx))).1 ++
                '-' :: (joinHyphen (walkAux 0 (splitHyphen (d.take idx))).2 ++
                  d.drop idx)
              = (joinHyphen (walkAux 0 (splitHyphen (d.take idx))).1 ++
                  '-' :: joinHyphen (walkAux 0 (splitHyphen (d.take idx))).2) ++
                  d.drop idx := by simp
            _ = joinHyphen ((walkAux 0 (splitHyphen (d.take idx))).1 ++
                  (walkAux 0 (splitHyphen (d.take idx))).2) ++ d.drop idx := by
                  rw [hj]
            _ = joinHyphen (splitHyphen (d.take idx)) ++ d.drop idx := by
                  rw [hw]
            _ = d.take idx ++ d.drop idx := by rw [joinHyphen_splitHyphen]
            _ = d := List.take_append_drop idx d
        | false =>
          have he : extract_set_and_card d = naiveSplit d := by
            simp [extract_set_and_card, hfk, hfa, hlen, hg]
          rw [he]
          rcases naiveSplit_spec d with h | h
          · left; rw [h]; exact ⟨rfl, rfl⟩
          · right; exact h
      · have he : extract_set_and_card d = naiveSplit d := by
          simp [extract_set_and_card, hfk, hfa, hlen]
        rw [he]
        rcases naiveSplit_spec d with h | h
        · left; rw [h]; exact ⟨rfl, rfl⟩
        · right; exact h
    | none =>
      have he : extract_set_and_card d = naiveSplit d := by
        simp [extract_set_and_card, hfk, hfa]
      rw [he]
      rcases naiveSplit_spec d with h | h
      · left; rw [h]; exact ⟨rfl, rfl⟩
      · right; exact h

/-
Parser projection lemma shared by the field-extraction claims.
-/

/-- A parsed line produces exactly the record assembled by `buildCard` from
the stripped line and the `Magic-` group of the price-stripped text. -/
theorem parse_card_line_eq_some {line : List Char} {c : Card}
    (h : parse_card_line line = some c) :
    ∃ rawDesc, findMagic (removeDollars (pyStrip line)) = some rawDesc ∧
      c = buildCard (pyStrip line) rawDesc := by
  simp only [parse_card_line] at h
  split_ifs at h
  cases hm : findMagic (removeDollars (pyStrip line)) with
  | none => rw [hm] at h; simp at h
  | some raw =>
    rw [hm] at h
    simp only [Option.some.injEq] at h
    exact ⟨raw, rfl, h.symm⟩

/-
Claim C4.
-/

/-- Claim C4: for every merged entry line that yields a record, the unit
price is the value of the second-to-last collected `$` token and the line
total the value of the last one when at least two tokens exist; with fewer
than two tokens both prices default to zero. -/
theorem price_extraction_rule :
    ∀ (line : List Char) (c : Card), pyStrip line = line →
      parse_card_line line = some c →
      (2 ≤ (pricesOf line).length →
        ((pricesOf line).dropLast.getLast?).map pyFloat = some c.price ∧
        ((pricesOf line).getLast?).map pyFloat = some c.total_price) ∧
      ((pricesOf line).length < 2 → c.price = 0 ∧ c.total_price = 0) := by
  intro line c hstrip h
  obtain ⟨raw, hm, rfl⟩ := parse_card_line_eq_some h
  rw [hstrip]
  constructor
  · intro hlen
    obtain ⟨a, b, t, hrev⟩ : ∃ a b t, (pricesOf line).reverse = a :: b :: t := by
      cases hr : (pricesOf line).reverse with
      | nil =>
        exfalso
        have : (pricesOf line).length = 0 := by
          rw [← List.length_reverse, hr]; rfl
        omega
      | cons a r1 =>
        cases r1 with
        | nil =>
          exfalso
          have : (pricesOf line).length = 1 := by
            rw [← List.length_reverse, hr]; rfl
          omega
        | cons b t => exact ⟨a, b, t, rfl⟩
    have hl : pricesOf line = (t.reverse ++ [b]) ++ [a] := by
      have := congrArg List.reverse hrev
      simpa [List.reverse_cons, List.append_assoc] using this
    have hpp : pricePair (pricesOf line) = (pyFloat b, pyFloat a) := by
      simp [pricePair, hrev]
    constructor
    · rw [hl, List.dropLast_concat, List.getLast?_concat]
      simp only [buildCard, hpp, Option.map_some']
    · rw [hl, List.getLast?_concat]
      simp only [buildCard, hpp, Option.map_some']
  · intro hlt
    have hpp : pricePair (pricesOf line) = (0, 0) := by
      cases hr : (pricesOf line).reverse with
      | nil => simp [pricePair, hr]
      | cons a r1 =>
        cases r1 with
        | nil => simp [pricePair, hr]
        | cons b t =>
          exfalso
          have : (pricesOf line).length = t.length + 2 := by
            rw [← List.length_reverse, hr]; simp
          omega
    simp [buildCard, hpp]

/-- Record produced for the concrete two-price line of the C4 witness. -/
def priceWitnessCard : Card :=
  { quantity := 4
    set_name := "Foo".data
    card_name := []
    collector_number := "1".data
    rarity := "R".data
    condition := "Near Mint".data
    is_foil := false
    price := Rat.divInt 3 2
    total_price := 3
    variant := none
    language := none }

/-- Witness for claim C4 at a concrete line carrying two price tokens. -/
theorem price_extraction_rule_witness :
    2 ≤ (pricesOf "4 Magic-Foo-#1-R $1.50 $3.00".data).length ∧
    ((pricesOf "4 Magic-Foo-#1-R $1.50 $3.00".data).dropLast.getLast?).map
        pyFloat = some priceWitnessCard.price ∧
    ((pricesOf "4 Magic-Foo-#1-R $1.50 $3.00".data).getLast?).map pyFloat =
      some priceWitnessCard.total_price :=
  ⟨by decide,
    (price_extraction_rule "4 Magic-Foo-#1-R $1.50 $3.00".data priceWitnessCard
      (by decide) (by decide)).1 (by decide)⟩

/-
Claim C8.
-/

/-- Claim C8, counterexample: on a line whose `Japanese` keyword is glued to
a preceding word but sits at the end of the string, the parser sets the
localization tag (the end-anchored alternative has no left boundary), while
the claimed bounded-on-each-side rule leaves it unset. -/
theorem localization_boundary_cex :
    ((parse_card_line "4 Magic-Abc-#12-R-NearMintXJapanese".data).map
        fun c => c.language) = some (some "Japanese".data) ∧
    specLangOf "4 Magic-Abc-#12-R-NearMintXJapanese".data = none := by decide

/-- Claim C8, amended: the localization tag of a produced record is the
first match of the ordered pattern table on the stripped line, where a
full-language-name pattern requires the keyword bounded by a hyphen or
whitespace on both sides or placed at the end of the string (its left side
then unconstrained), the Chinese patterns are plain substring tests, and no
match leaves the tag unset. -/
theorem language_first_match :
    ∀ (line : List Char) (c : Card), parse_card_line line = some c →
      c.language = firstLang language_patterns (pyStrip line) := by
  intro line c h
  obtain ⟨raw, hm, rfl⟩ := parse_card_line_eq_some h
  simp [buildCard]

/-- Record produced for the concrete line of the C8 witness. -/
def languageWitnessCard : Card :=
  { quantity := 4
    set_name := "A".data
    card_name := []
    collector_number := "1".data
    rarity := "R".data
    condition := "Near Mint".data
    is_foil := false
    price := 0
    total_price := 0
    variant := none
    language := some "Japanese".data }

/-- Witness for the amended claim C8 at a concrete line with a hyphen-bound
language keyword. -/
theorem language_first_match_witness :
    languageWitnessCard.language =
      firstLang language_patterns (pyStrip "4 Magic-A-#1-R-Japanese".data) :=
  language_first_match "4 Magic-A-#1-R-Japanese".data languageWitnessCard
    (by decide)

/-
Claim C10.
-/

/-- The containment test agrees with list infixes. -/
theorem hasSub_iff : ∀ l q : List Char, hasSub l q = true ↔ q <:+: l := by
  intro l
  induction l with
  | nil =>
    intro q
    simp [hasSub, List.isEmpty_eq_true, List.infix_nil]
  | cons c t ih =>
    intro q
    simp only [hasSub, Bool.or_eq_true, List.isPrefixOf_iff_prefix, ih,
      List.infix_cons_iff]

/-- A non-empty whitespace-free infix survives dropping leading whitespace. -/
theorem infix_dropWhile_pySpace (q : List Char) (hq : q ≠ [])
    (hnw : ∀ x ∈ q, pySpace x = false) :
    ∀ l : List Char, q <:+: l → q <:+: l.dropWhile pySpace := by
  intro l
  induction l with
  | nil => intro h; simpa using h
  | cons c t ih =>
    intro h
    by_cases hc : pySpace c = true
    · rw [List.dropWhile_cons_of_pos hc]
      apply ih
      rcases List.infix_cons_iff.mp h with hp | hi
      · exfalso
        obtain ⟨q0, q', rfl⟩ := List.exists_cons_of_ne_nil hq
        have := (List.cons_prefix_cons.mp hp).1
        have hq0 := hnw q0 (by simp)
        rw [this] at hq0
        rw [hq0] at hc
        exact Bool.false_ne_true hc
      · exact hi
    · rw [List.dropWhile_cons_of_neg (by simpa using hc)]
      exact h

/-- A non-empty whitespace-free infix survives stripping. -/
theorem infix_pyStrip (q : List Char) (hq : q ≠ [])
    (hnw : ∀ x ∈ q, pySpace x = false) :
    ∀ l : List Char, q <:+: l → q <:+: pyStrip l := by
  intro l h
  unfold pyStrip
  have h1 := infix_dropWhile_pySpace q hq hnw l h
  have h2 : q.reverse <:+: (l.dropWhile pySpace).reverse :=
    List.reverse_infix.mpr h1
  have h3 := infix_dropWhile_pySpace q.reverse (by simpa using hq)
    (fun x hx => hnw x (List.mem_reverse.mp hx)) _ h2
  have h4 := List.reverse_infix.mpr h3
  simpa using h4

/-- Claim C10: any line containing the substring `Quantity` or the
substring `Description` yields no record, even when it matches the
entry-start shape. -/
theorem header_words_yield_no_record :
    ∀ line : List Char,
      hasSub line "Quantity".data = true ∨
        hasSub line "Description".data = true →
      parse_card_line line = none := by
  intro line h
  simp only [parse_card_line]
  by_cases hm : matchesCardStart (pyStrip line) = true
  · have hg : (hasSub (pyStrip line) "Quantity".data ||
        hasSub (pyStrip line) "Description".data) = true := by
      rcases h with h | h
      · have hi := infix_pyStrip "Quantity".data (by decide) (by decide) line
          ((hasSub_iff _ _).mp h)
        rw [Bool.or_eq_true]
        exact Or.inl ((hasSub_iff _ _).mpr hi)
      · have hi := infix_pyStrip "Description".data (by decide) (by decide)
          line ((hasSub_iff _ _).mp h)
        rw [Bool.or_eq_true]
        exact Or.inr ((hasSub_iff _ _).mpr hi)
    simp [hm, hg]
  · simp [hm]

/-- Witness for claim C10 at a concrete shape-valid line containing
`Quantity`. -/
theorem header_words_yield_no_record_witness :
    hasSub "4 Magic-QuantityFoo-#1".data "Quantity".data = true ∧
      parse_card_line "4 Magic-QuantityFoo-#1".data = none :=
  ⟨by decide, header_words_yield_no_record "4 Magic-QuantityFoo-#1".data
    (Or.inl (by decide))⟩

/-
Claim C9: lemmas about absent field markers.
-/

/-- Without a dollar sign the price-token matcher never fires, so no price
tokens are collected. -/
theorem pricesOf_eq_nil {l : List Char} (h : '$' ∉ l) : pricesOf l = [] := by
  unfold pricesOf scanCollect
  generalize l.length = fuel
  induction fuel generalizing l with
  | zero => cases l <;> rfl
  | succ n ih =>
    cases l with
    | nil => rfl
    | cons c rest =>
      have hc : ¬(c = '$') := fun e => h (by simp [e])
      have hm : mDollarTok (c :: rest) = none := by simp [mDollarTok, hc]
      simp only [scanCollectAux, hm]
      exact ih (fun m => h (List.mem_cons_of_mem _ m))

/-- Without a dollar sign the removal scanner leaves any suffix unchanged,
for any fuel and previous character. -/
theorem scanRepAux_dollar_id : ∀ (fuel : Nat) (prev : Option Char)
    (l : List Char), '$' ∉ l →
    scanRepAux (fun _ t => (mDollarTok t).map fun p => (p.1, ([] : List Char)))
      fuel prev l = l := by
  intro fuel
  induction fuel with
  | zero => intro prev l _; cases l <;> rfl
  | succ n ih =>
    intro prev l h
    cases l with
    | nil => rfl
    | cons c rest =>
      have hc : ¬(c = '$') := fun e => h (by simp [e])
      have hm : mDollarTok (c :: rest) = none := by simp [mDollarTok, hc]
      simp only [scanRepAux, hm, Option.map_none']
      rw [ih (some c) rest (fun m => h (List.mem_cons_of_mem _ m))]

/-- Without a dollar sign price removal leaves the line unchanged. -/
theorem removeDollars_eq_self {l : List Char} (h : '$' ∉ l) :
    removeDollars l = l := by
  unfold removeDollars scanRep
  exact scanRepAux_dollar_id l.length none l h

/-- Without a dollar sign the wrap-displaced rarity pattern never matches. -/
theorem rarityScanC_eq_none {l : List Char} (h : '$' ∉ l) :
    rarityScanC l = none := by
  induction l with
  | nil => rfl
  | cons c rest ih =>
    have hc : ¬(c = '$') := fun e => h (by simp [e])
    have hm : matchRarC (c :: rest) = none := by simp [matchRarC, hc]
    simp [rarityScanC, hm, ih (fun m => h (List.mem_cons_of_mem _ m))]

/-- Without a hash sign no identifier is found. -/
theorem findHashPos_eq_none {l : List Char} (h : '#' ∉ l) :
    findHashPos l = none := by
  induction l with
  | nil => rfl
  | cons c rest ih =>
    have hc : ¬(c = '#') := fun e => h (by simp [e])
    have hm : matchHash (c :: rest) = none := by
      cases rest with
      | nil => rfl
      | cons d r2 => simp [matchHash, hc]
    simp [findHashPos, hm, ih (fun m => h (List.mem_cons_of_mem _ m))]

/-- Characters of the found `Magic-` group come from the scanned line. -/
theorem findMagic_subset : ∀ {l raw : List Char}, findMagic l = some raw →
    ∀ c ∈ raw, c ∈ l := by
  intro l
  induction l with
  | nil => intro raw h; simp [findMagic] at h
  | cons c0 rest ih =>
    intro raw h c hc
    rw [findMagic] at h
    by_cases hp : "Magic-".data.isPrefixOf (c0 :: rest) = true
    · rw [if_pos hp] at h
      cases hd : (c0 :: rest).drop 6 with
      | nil =>
        rw [hd] at h
        exact List.mem_cons_of_mem _ (ih h c hc)
      | cons d tl =>
        rw [hd] at h
        have h9 : (if d = '\n' then findMagic rest
            else some ((d :: tl).takeWhile (fun x => x != '\n'))) = some raw := h
        by_cases hn : d = '\n'
        · rw [if_pos hn] at h9
          exact List.mem_cons_of_mem _ (ih h9 c hc)
        · rw [if_neg hn] at h9
          injection h9 with h'
          rw [← h'] at hc
          have h2 : c ∈ d :: tl :=
            (List.takeWhile_sublist (fun x => x != '\n')).subset hc
          rw [← hd] at h2
          exact List.drop_subset 6 (c0 :: rest) h2
    · rw [if_neg hp] at h
      exact List.mem_cons_of_mem _ (ih h c hc)

/-- Characters of the stripped string come from the string. -/
theorem pyStrip_subset (l : List Char) : ∀ c ∈ pyStrip l, c ∈ l := by
  intro c hc
  unfold pyStrip at hc
  rw [List.mem_reverse] at hc
  have h1 : c ∈ (l.dropWhile pySpace).reverse :=
    (List.dropWhile_sublist pySpace).subset hc
  rw [List.mem_reverse] at h1
  exact (List.dropWhile_sublist pySpace).subset h1

/-- Characters of a hyphen-split part come from the split string. -/
theorem splitHyphen_mem : ∀ (l : List Char) (p : List Char),
    p ∈ splitHyphen l → ∀ c ∈ p, c ∈ l := by
  intro l
  induction l with
  | nil =>
    intro p hp c hc
    simp [splitHyphen] at hp
    subst hp
    simp at hc
  | cons c0 rest ih =>
    intro p hp c hc
    by_cases h0 : c0 = '-'
    · rw [splitHyphen, if_pos h0] at hp
      rcases List.mem_cons.mp hp with rfl | hp'
      · simp at hc
      · exact List.mem_cons_of_mem _ (ih p hp' c hc)
    · rw [splitHyphen, if_neg h0] at hp
      obtain ⟨q, qs, hq⟩ := List.exists_cons_of_ne_nil (splitHyphen_ne_nil rest)
      rw [hq] at hp
      rcases List.mem_cons.mp hp with rfl | hp'
      · rcases List.mem_cons.mp hc with rfl | hc'
        · exact List.mem_cons_self _ _
        · exact List.mem_cons_of_mem _
            (ih q (hq ▸ List.mem_cons_self _ _) c hc')
      · exact List.mem_cons_of_mem _
          (ih p (hq ▸ List.mem_cons_of_mem _ hp') c hc)

/-- Characters of a hyphen-join are hyphens or come from some part. -/
theorem joinHyphen_mem : ∀ (ps : List (List Char)) (c : Char),
    c ∈ joinHyphen ps → c = '-' ∨ ∃ p ∈ ps, c ∈ p := by
  intro ps
  induction ps with
  | nil => intro c hc; simp [joinHyphen] at hc
  | cons p rest ih =>
    intro c hc
    cases rest with
    | nil =>
      right
      exact ⟨p, List.mem_cons_self _ _, hc⟩
    | cons q qs =>
      have hj : joinHyphen (p :: q :: qs) = p ++ '-' :: joinHyphen (q :: qs) :=
        rfl
      rw [hj] at hc
      rcases List.mem_append.mp hc with h1 | h1
      · exact Or.inr ⟨p, List.mem_cons_self _ _, h1⟩
      · rcases List.mem_cons.mp h1 with rfl | h2
        · exact Or.inl rfl
        · rcases ih c h2 with h3 | ⟨p', hp', hc'⟩
          · exact Or.inl h3
          · exact Or.inr ⟨p', List.mem_cons_of_mem _ hp', hc'⟩

/-- Characters of the last-resort remainder come from the description. -/
theorem naiveSplit_snd_subset (d : List Char) :
    ∀ x ∈ (naiveSplit d).2, x ∈ d := by
  intro x hx
  rcases naiveSplit_spec d with h | h
  · rw [h] at hx
    exact hx
  · rw [← h]
    exact List.mem_append.mpr (Or.inr (List.mem_cons_of_mem _ hx))

/-- Characters of the splitter remainder come from the description or are
hyphens. -/
theorem extract_snd_mem (d : List Char) :
    ∀ c ∈ (extract_set_and_card d).2, c ∈ d ∨ c = '-' := by
  intro c hc
  cases hfk : findKnownSet d with
  | some p =>
    have he : extract_set_and_card d = (p, d.drop (p.length + 1)) := by
      simp [extract_set_and_card, hfk]
    rw [he] at hc
    exact Or.inl (List.drop_subset _ _ hc)
  | none =>
    cases hfa : findAnchor d with
    | some idx =>
      by_cases hlen : 2 ≤ (splitHyphen (d.take idx)).length
      · cases hg : (!(walkAux 0 (splitHyphen (d.take idx))).1.isEmpty &&
            !(walkAux 0 (splitHyphen (d.take idx))).2.isEmpty) with
        | true =>
          have he : extract_set_and_card d =
              (joinHyphen (walkAux 0 (splitHyphen (d.take idx))).1,
                joinHyphen (walkAux 0 (splitHyphen (d.take idx))).2 ++
                  d.drop idx) := by
            simp [extract_set_and_card, hfk, hfa, hlen, hg]
          rw [he] at hc
          rcases List.mem_append.mp hc with h1 | h1
          · rcases joinHyphen_mem _ c h1 with h2 | ⟨p, hp, hcp⟩
            · exact Or.inr h2
            · have hpparts : p ∈ splitHyphen (d.take idx) := by
                rw [← walkAux_append (splitHyphen (d.take idx)) 0]
                exact List.mem_append.mpr (Or.inr hp)
              exact Or.inl (List.take_subset _ _
                (splitHyphen_mem _ p hpparts c hcp))
          · exact Or.inl (List.drop_subset _ _ h1)
        | false =>
          have he : extract_set_and_card d = naiveSplit d := by
            simp [extract_set_and_card, hfk, hfa, hlen, hg]
          rw [he] at hc
          exact Or.inl (naiveSplit_snd_subset d c hc)
      · have he : extract_set_and_card d = naiveSplit d := by
          simp [extract_set_and_card, hfk, hfa, hlen]
        rw [he] at hc
        exact Or.inl (naiveSplit_snd_subset d c hc)
    | none =>
      have he : extract_set_and_card d = naiveSplit d := by
        simp [extract_set_and_card, hfk, hfa]
      rw [he] at hc
      exact Or.inl (naiveSplit_snd_subset d c hc)

/-- With no matching pattern the first-match loop reports no language. -/
theorem firstLang_eq_none : ∀ (ps : List ((List Char → Bool) × List Char))
    (l : List Char), (∀ p ∈ ps, p.1 l = false) → firstLang ps l = none := by
  intro ps l h
  induction ps with
  | nil => rfl
  | cons p rest ih =>
    have hp := h p (List.mem_cons_self _ _)
    simp only [firstLang, hp, Bool.false_eq_true, if_false]
    exact ih (fun q hq => h q (List.mem_cons_of_mem _ hq))

/-- Claim C9, counterexample: the shape-valid line `4 Magic-` carries no
dollar token and no identifier, yet no record is produced, because the
`Magic-` group regex requires at least one character after the marker. -/
theorem sparse_entry_claim_cex :
    matchesCardStart "4 Magic-".data = true ∧
    '$' ∉ "4 Magic-".data ∧ '#' ∉ "4 Magic-".data ∧
    parse_card_line "4 Magic-".data = none := by decide

/-- Claim C9, amended: a trimmed line of entry-start shape that does not
contain the header words, has at least one character after the `Magic-`
marker, and carries no dollar and no hash sign, always yields a record;
its prices default to zero and its identifier is absent, and each of the
remaining fields whose markers are absent takes its documented default
(rarity `R`, condition `Near Mint`, no foil, no localization). -/
theorem sparse_entry_defaults :
    ∀ line : List Char, pyStrip line = line → matchesCardStart line = true →
      hasSub line "Quantity".data = false →
      hasSub line "Description".data = false →
      '$' ∉ line → '#' ∉ line →
      (findMagic line).isSome = true →
      ∃ c, parse_card_line line = some c ∧
        c.price = 0 ∧ c.total_price = 0 ∧ c.collector_number = [] ∧
        (∀ raw, findMagic line = some raw →
          rarityScanA (extract_set_and_card (pyStrip raw)).2 = none →
          rarityScanB (extract_set_and_card (pyStrip raw)).2 = none →
          c.rarity = "R".data) ∧
        (hasSub line "Foil".data = false → c.is_foil = false) ∧
        (hasSub line "LightlyPlayed".data = false →
          hasSub line "Lightly Played".data = false →
          hasSub line "ModeratelyPlayed".data = false →
          hasSub line "Moderately Played".data = false →
          hasSub line "HeavilyPlayed".data = false →
          hasSub line "Heavily Played".data = false →
          c.condition = "Near Mint".data) ∧
        ((∀ p ∈ language_patterns, p.1 line = false) → c.language = none) := by
  intro line h1 h2 h3 h4 h5 h6 h7
  have hrd : removeDollars line = line := removeDollars_eq_self h5
  obtain ⟨raw, hraw⟩ := Option.isSome_iff_exists.mp h7
  have hq : (line.takeWhile Char.isDigit).isEmpty = false := by
    have h2' := h2
    simp only [matchesCardStart, Bool.and_eq_true, Bool.not_eq_true'] at h2'
    exact h2'.1.1
  have hparse : parse_card_line line = some (buildCard line raw) := by
    simp [parse_card_line, h1, hrd, hraw, h2, h3, h4, hq]
  have hprices : pricesOf line = [] := pricesOf_eq_nil h5
  have hpp : pricePair (pricesOf line) = (0, 0) := by rw [hprices]; rfl
  have hhash : '#' ∉ (extract_set_and_card (pyStrip raw)).2 := by
    intro hmem
    rcases extract_snd_mem (pyStrip raw) '#' hmem with hin | heq
    · exact h6 (findMagic_subset hraw _ (pyStrip_subset raw _ hin))
    · exact absurd heq (by decide)
  have hfh : findHashPos (extract_set_and_card (pyStrip raw)).2 = none :=
    findHashPos_eq_none hhash
  refine ⟨buildCard line raw, hparse, ?_, ?_, ?_, ?_, ?_, ?_, ?_⟩
  · simp [buildCard, hpp]
  · simp [buildCard, hpp]
  · simp [buildCard, hfh]
  · intro raw' hraw' hA hB
    rw [hraw] at hraw'
    injection hraw' with he
    subst he
    have hcC : rarityScanC line = none := rarityScanC_eq_none h5
    simp [buildCard, rarityInfo, hA, hB, hcC]
  · intro hfoil
    simp [buildCard, hfoil]
  · intro hc1 hc2 hc3 hc4 hc5 hc6
    simp [buildCard, condOf, hc1, hc2, hc3, hc4, hc5, hc6]
  · intro hl
    simp [buildCard, firstLang_eq_none _ _ hl]

/-- Witness for the amended claim C9 at the concrete sparse line
`4 Magic-Foo`. -/
theorem sparse_entry_defaults_witness :
    (parse_card_line "4 Magic-Foo".data).isSome = true := by
  obtain ⟨c, hc, -⟩ := sparse_entry_defaults "4 Magic-Foo".data (by decide)
    (by decide) (by decide) (by decide) (by decide) (by decide) (by decide)
  rw [hc]
  rfl

/-
Claim C5: merger equivalence lemmas.
-/

/-- Unfolding lemma for the claim-side merged entries on an empty input. -/
theorem mergedEntriesSpec_nil : mergedEntriesSpec [] = [] := by
  simp [mergedEntriesSpec]

/-- Unfolding lemma for the claim-side merged entries on a non-empty input. -/
theorem mergedEntriesSpec_cons (l : List Char) (rest : List (List Char)) :
    mergedEntriesSpec (l :: rest) =
      if matchesCardStart l then
        (l ++ (grabEntry rest).1) :: mergedEntriesSpec (grabEntry rest).2
      else mergedEntriesSpec rest := by
  simp [mergedEntriesSpec]

/-- A page-noise header line is not an entry start. -/
theorem noise_not_start {l : List Char} (h : isNoiseLine l = true) :
    matchesCardStart l = false := by
  have hQ : Char.isDigit 'Q' = false := rfl
  have hO : Char.isDigit 'O' = false := rfl
  rcases Bool.or_eq_true _ _ |>.mp h with h1 | h1
  · rw [List.isPrefixOf_iff_prefix] at h1
    obtain ⟨t, ht⟩ := h1
    rw [← ht]
    simp [matchesCardStart, List.takeWhile_cons, hQ]
  · rw [List.isPrefixOf_iff_prefix] at h1
    obtain ⟨t, ht⟩ := h1
    rw [← ht]
    simp [matchesCardStart, List.takeWhile_cons, hO]

/-- A trailing total-summary line is not an entry start. -/
theorem total_not_start {l : List Char} (h : isTotalLine l = true) :
    matchesCardStart l = false := by
  rw [Bool.eq_false_iff]
  intro hst
  simp only [isTotalLine, Bool.and_eq_true] at h
  simp only [matchesCardStart, Bool.and_eq_true] at hst
  have h1 := h.1.1.2
  have h2 := hst.2
  rw [List.isPrefixOf_iff_prefix] at h1 h2
  obtain ⟨t1, e1⟩ := h1
  obtain ⟨t2, e2⟩ := h2
  rw [← e1] at e2
  injection e2 with e3 _
  exact absurd e3 (by decide)

/-- Grabbing an entry consumes no entry-start lines. -/
theorem grabEntry_count : ∀ ls : List (List Char),
    ((grabEntry ls).2.countP matchesCardStart) = ls.countP matchesCardStart := by
  intro ls
  induction ls with
  | nil => rfl
  | cons l rest ih =>
    by_cases hemp : l.isEmpty = true
    · have hl : l = [] := List.isEmpty_eq_true.mp hemp
      have hstart : matchesCardStart l = false := by rw [hl]; rfl
      rw [grabEntry, if_pos hemp, ih, List.countP_cons, hstart]
      simp
    · by_cases hbreak : isBreakLine l = true
      · rw [grabEntry, if_neg (by simp [hemp]), if_pos hbreak]
      · have hstart : matchesCardStart l = false := by
          rw [Bool.eq_false_iff]
          intro hs
          exact (Bool.eq_false_iff.mp (Bool.eq_false_iff.mpr hbreak))
            (by simp [isBreakLine, hs])
        rw [grabEntry, if_neg (by simp [hemp]), if_neg hbreak]
        simp only [List.countP_cons, hstart, ih]
        simp

/-- Length of the claim-side merged entries equals the number of
entry-start lines. -/
theorem mergedEntriesSpec_length : ∀ (n : Nat) (ls : List (List Char)),
    ls.length ≤ n →
    (mergedEntriesSpec ls).length = ls.countP matchesCardStart := by
  intro n
  induction n with
  | zero =>
    intro ls hle
    have : ls = [] := List.length_eq_zero.mp (Nat.le_zero.mp hle)
    subst this
    rw [mergedEntriesSpec_nil]
    rfl
  | succ n ih =>
    intro ls hle
    cases ls with
    | nil => rw [mergedEntriesSpec_nil]; rfl
    | cons l rest =>
      have hr : rest.length ≤ n := by
        simp only [List.length_cons] at hle
        omega
      rw [mergedEntriesSpec_cons]
      by_cases hstart : matchesCardStart l = true
      · rw [if_pos hstart]
        have hg : (grabEntry rest).2.length ≤ n :=
          Nat.le_trans (grabEntry_snd_length rest) hr
        simp only [List.length_cons, ih _ hg, grabEntry_count rest,
          List.countP_cons, hstart]
        simp
      · rw [if_neg hstart, ih rest hr, List.countP_cons]
        simp [Bool.eq_false_iff.mpr hstart]

/-- The merger loop computes the claim-side merged entries: on a trimmed
input, with no open entry it produces exactly the claim-side entries, and
with an open entry it first flushes that entry extended by the grabbed
continuation text. -/
theorem mergeAux_eq_spec : ∀ lines : List (List Char),
    (∀ l ∈ lines, pyStrip l = l) →
    mergeAux lines [] = mergedEntriesSpec lines ∧
      ∀ cur : List Char, cur ≠ [] →
        mergeAux lines cur =
          (cur ++ (grabEntry lines).1) :: mergedEntriesSpec (grabEntry lines).2 := by
  intro lines
  induction lines with
  | nil =>
    intro _
    constructor
    · rw [mergedEntriesSpec_nil]; rfl
    · intro cur hcur
      have hce : cur.isEmpty = false := List.isEmpty_eq_false.mpr hcur
      rw [mergeAux, if_neg (by simp [hce]), grabEntry, mergedEntriesSpec_nil]
      simp
  | cons l rest ih =>
    intro htrim
    have hl : pyStrip l = l := htrim l (List.mem_cons_self _ _)
    obtain ⟨ihnil, ihcur⟩ := ih (fun x hx => htrim x (List.mem_cons_of_mem _ hx))
    by_cases hemp : l.isEmpty = true
    · have hle : l = [] := List.isEmpty_eq_true.mp hemp
      have hstart : matchesCardStart l = false := by rw [hle]; rfl
      have hm : ∀ cur, mergeAux (l :: rest) cur = mergeAux rest cur := by
        intro cur
        rw [mergeAux]
        simp only [hl]
        rw [if_pos hemp]
      have hgr : grabEntry (l :: rest) = grabEntry rest := by
        rw [grabEntry, if_pos hemp]
      constructor
      · rw [hm, mergedEntriesSpec_cons, if_neg (by simp [hstart]), ihnil]
      · intro cur hcur
        rw [hm, hgr]
        exact ihcur cur hcur
    · have hne : l.isEmpty = false := by simp at hemp; simp [hemp]
      by_cases hnoise : isNoiseLine l = true
      · have hstart : matchesCardStart l = false := noise_not_start hnoise
        have hbreak : isBreakLine l = true := by simp [isBreakLine, hnoise]
        have hm : ∀ cur, mergeAux (l :: rest) cur =
            if cur.isEmpty then mergeAux rest []
            else cur :: mergeAux rest [] := by
          intro cur
          rw [mergeAux]
          simp only [hl]
          rw [if_neg (by simp [hne]), if_pos hnoise]
        have hgr : grabEntry (l :: rest) = ([], l :: rest) := by
          rw [grabEntry, if_neg (by simp [hne]), if_pos hbreak]
        have hsp : mergedEntriesSpec (l :: rest) = mergedEntriesSpec rest := by
          rw [mergedEntriesSpec_cons, if_neg (by simp [hstart])]
        constructor
        · rw [hm, hsp]
          simp [ihnil]
        · intro cur hcur
          have hce : cur.isEmpty = false := List.isEmpty_eq_false.mpr hcur
          rw [hm, hgr, if_neg (by simp [hce]), ihnil, hsp]
          simp
      · by_cases htotal : isTotalLine l = true
        · have hstart : matchesCardStart l = false := total_not_start htotal
          have hbreak : isBreakLine l = true := by simp [isBreakLine, htotal]
          have hm : ∀ cur, mergeAux (l :: rest) cur =
              if cur.isEmpty then mergeAux rest []
              else cur :: mergeAux rest [] := by
            intro cur
            rw [mergeAux]
            simp only [hl]
            rw [if_neg (by simp [hne]), if_neg (by simp [hnoise]),
              if_pos htotal]
          have hgr : grabEntry (l :: rest) = ([], l :: rest) := by
            rw [grabEntry, if_neg (by simp [hne]), if_pos hbreak]
          have hsp : mergedEntriesSpec (l :: rest) = mergedEntriesSpec rest := by
            rw [mergedEntriesSpec_cons, if_neg (by simp [hstart])]
          constructor
          · rw [hm, hsp]
            simp [ihnil]
          · intro cur hcur
            have hce : cur.isEmpty = false := List.isEmpty_eq_false.mpr hcur
            rw [hm, hgr, if_neg (by simp [hce]), ihnil, hsp]
            simp
        · by_cases hstart : matchesCardStart l = true
          · have hbreak : isBreakLine l = true := by
              simp [isBreakLine, hstart]
            have hlne : l ≠ [] := fun e => by
              rw [e] at hne
              exact absurd hne (by simp)
            have hm : ∀ cur, mergeAux (l :: rest) cur =
                if cur.isEmpty then mergeAux rest l
                else cur :: mergeAux rest l := by
              intro cur
              rw [mergeAux]
              simp only [hl]
              rw [if_neg (by simp [hne]), if_neg (by simp [hnoise]),
                if_neg (by simp [htotal]), if_pos hstart]
            have hgr : grabEntry (l :: rest) = ([], l :: rest) := by
              rw [grabEntry, if_neg (by simp [hne]), if_pos hbreak]
            have hsp : mergedEntriesSpec (l :: rest) =
                (l ++ (grabEntry rest).1) ::
                  mergedEntriesSpec (grabEntry rest).2 := by
              rw [mergedEntriesSpec_cons, if_pos hstart]
            constructor
            · rw [hm, if_pos (show ([] : List Char).isEmpty = true from rfl),
                ihcur l hlne, hsp]
            · intro cur hcur
              have hce : cur.isEmpty = false := List.isEmpty_eq_false.mpr hcur
              rw [hm, if_neg (by simp [hce]), ihcur l hlne, hgr, hsp]
              simp
          · have hbreak : isBreakLine l = false := by
              simp [isBreakLine, hnoise, htotal]
              simp at hstart
              exact hstart
            have hm : ∀ cur, mergeAux (l :: rest) cur =
                if cur.isEmpty then mergeAux rest cur
                else mergeAux rest (cur ++ l) := by
              intro cur
              rw [mergeAux]
              simp only [hl]
              rw [if_neg (by simp [hne]), if_neg (by simp [hnoise]),
                if_neg (by simp [htotal]), if_neg (by simp [hstart])]
            have hgr : grabEntry (l :: rest) =
                (l ++ (grabEntry rest).1, (grabEntry rest).2) := by
              rw [grabEntry, if_neg (by simp [hne]), if_neg (by simp [hbreak])]
            have hsp : mergedEntriesSpec (l :: rest) = mergedEntriesSpec rest := by
              rw [mergedEntriesSpec_cons, if_neg (by simp [hstart])]
            constructor
            · rw [hm, if_pos (show ([] : List Char).isEmpty = true from rfl),
                ihnil, hsp]
            · intro cur hcur
              have hce : cur.isEmpty = false := List.isEmpty_eq_false.mpr hcur
              have hcl : cur ++ l ≠ [] := by
                intro e
                exact hcur (List.append_eq_nil.mp e).1
              rw [hm, if_neg (by simp [hce]), ihcur (cur ++ l) hcl, hgr]
              simp

/-- Claim C5: on a sequence of trimmed lines the merger produces exactly the
claim-side merged entries (one per entry-start line, in order, each the
character-exact concatenation of its start line and its continuation lines
up to the next entry start, noise line, or end of input, with a final flush
at end of input), and the number of merged entries equals the number of
entry-start lines. -/
theorem merger_completeness :
    ∀ lines : List (List Char), (∀ l ∈ lines, pyStrip l = l) →
      merge_continuation_lines lines = mergedEntriesSpec lines ∧
      (merge_continuation_lines lines).length =
        lines.countP matchesCardStart := by
  intro lines h
  have heq : merge_continuation_lines lines = mergedEntriesSpec lines :=
    (mergeAux_eq_spec lines h).1
  refine ⟨heq, ?_⟩
  rw [heq]
  exact mergedEntriesSpec_length lines.length lines (Nat.le_refl _)

/-- Input lines of the C5 witness. -/
def mergerWitnessLines : List (List Char) :=
  ["junk".data,
   "4 Magic-A-#1-R $1.00 $1.00".data,
   "cont".data,
   "Quantity Description Price".data,
   "lost".data,
   "3 Magic-B".data,
   "more".data,
   "12 Total $5.00".data]

/-- Witness for claim C5 at a concrete document. -/
theorem merger_completeness_witness :
    merge_continuation_lines mergerWitnessLines =
        mergedEntriesSpec mergerWitnessLines ∧
      (merge_continuation_lines mergerWitnessLines).length =
        mergerWitnessLines.countP matchesCardStart :=
  merger_completeness mergerWitnessLines (by decide)
